import Mathlib

/-!
Shallow embedding of the `aabel-bloom-rs` bloom filter (`src/lib.rs`).

The Rust type `BloomFilter<T, B, K, H>` holds a hash-family builder `B` and a
bit array `BitArray<[usize; K]>` of `K * 64` bits (64-bit platform, `usize`
is 64 bits wide).  The builder is modelled as a function `α → ℕ → ℕ`
sending an item to its conceptually infinite sequence of 64-bit hash values
(`builder.hashes_one(item)` yields `Hash64` values; element `i` of the
sequence is `builder x i`).

`insert` and `contains` consume the first `H` hash values.  For each hash
`h` the code computes `(h.into() : u64) as usize % self.bits.len()`; on the
modelled 64-bit platform the `u64 → usize` cast is value preserving, and
`%` on a zero-length array is the Rust modulo-by-zero panic, modelled by
`Option.none`.  `contains` takes `&mut self`, so it is embedded in
state-passing style, returning the (unchanged) filter next to the boolean.
-/

namespace AabelBloom

/-- Bit width of `usize` on the modelled 64-bit platform; the bit array
`BitArray<[usize; K]>` holds `K * wordBits` bits. -/
def wordBits : ℕ := 64

/-- The conversion `let hash: u64 = hash.into();` — a `Hash64` value viewed
as an unsigned 64-bit integer. -/
def hash64ToU64 (h : ℕ) : ℕ := h % 2 ^ 64

/-- The index computation `hash as usize % self.bits.len()` against a bit
array of length `M`, after the cast of the hash to `u64` (the further cast
`as usize` is value preserving on the 64-bit platform). -/
def bitIndex (M h : ℕ) : ℕ := hash64ToU64 h % M

/-- Shallow embedding of `BloomFilter<T, B, K, H>`: the hash-family builder
and the bit array.  The const generics `K` and `H` appear as arguments of
`new` and of `insert`/`contains` respectively. -/
structure BloomFilter (α : Type) where
  builder : α → ℕ → ℕ
  bits : List Bool

/-- `builder.hashes_one(item).take(H)`: the first `H` hash values the hash
family produces for `item`. -/
def hashesTake (b : α → ℕ → ℕ) (item : α) (H : ℕ) : List ℕ :=
  (List.range H).map (b item)

/-- Body of the `set_bit_for_hash` closure of `insert`: set the bit at
`hash as usize % self.bits.len()`.  When the bit array has length zero the
Rust `%` panics, modelled as `none`. -/
def setBitForHash (bits : List Bool) (h : ℕ) : Option (List Bool) :=
  if bits.length = 0 then none
  else some (bits.set (bitIndex bits.length h) true)

/-- Body of the `get_bit_for_hash` closure of `contains`: read the bit at
`hash as usize % self.bits.len()`, threading the (unread–unwritten) bit
array through, as the closure borrows `self.bits` from `&mut self`.  When
the bit array has length zero the Rust `%` panics, modelled as `none`. -/
def getBitForHash (bits : List Bool) (h : ℕ) : Option (Bool × List Bool) :=
  if bits.length = 0 then none
  else some (bits.getD (bitIndex bits.length h) false, bits)

/-- `BloomFilter::new`: an all-zero bit array of `K` words (`BitArray::ZERO`)
together with the supplied builder.  Construction is total: there is no
error path in the source. -/
def BloomFilter.new (builder : α → ℕ → ℕ) (K : ℕ) : BloomFilter α :=
  ⟨builder, List.replicate (K * wordBits) false⟩

/-- `BloomFilter::insert`: `self.builder.hashes_one(item).take(H).for_each(set_bit_for_hash)`.
Returns the filter after the mutation, or `none` when a `set_bit_for_hash`
call panics (zero-length bit array). -/
def BloomFilter.insert (H : ℕ) (f : BloomFilter α) (item : α) : Option (BloomFilter α) :=
  ((hashesTake f.builder item H).foldlM setBitForHash f.bits).map
    (fun bs => ⟨f.builder, bs⟩)

/-- The loop of `contains`: `Iterator::all` over the bit reads, with the
short-circuit of `all` (the closure is not called past the first `false`),
threading the bit array state. -/
def containsLoop : List ℕ → List Bool → Option (Bool × List Bool)
  | [], bits => some (true, bits)
  | h :: t, bits =>
    match getBitForHash bits h with
    | none => none
    | some (b, bits') => if b then containsLoop t bits' else some (false, bits')

/-- `BloomFilter::contains`: `self.builder.hashes_one(item).take(H).all(get_bit_for_hash)`.
The method takes `&mut self`, so the resulting filter state is returned next
to the boolean answer; `none` models the panic on a zero-length bit array. -/
def BloomFilter.contains (H : ℕ) (f : BloomFilter α) (item : α) : Option (Bool × BloomFilter α) :=
  (containsLoop (hashesTake f.builder item H) f.bits).map
    (fun p => (p.1, ⟨f.builder, p.2⟩))

/-- Folding `insert` over a sequence of items (a sequence of `insert` calls). -/
def insertAll (H : ℕ) (f : BloomFilter α) (items : List α) : Option (BloomFilter α) :=
  items.foldlM (fun g y => g.insert H y) f

/-- A concrete hash family used for closed evaluation fixtures. -/
def wB : ℕ → ℕ → ℕ := fun x i => x + 65 * i

/-- A concrete fresh filter (one 64-bit word). -/
def wF0 : BloomFilter ℕ := BloomFilter.new wB 1

/-- The fixture filter after `insert 5` with two hash values. -/
def wF1 : BloomFilter ℕ := (wF0.insert 2 5).getD wF0

/-- The fixture filter after a further `insert 9`. -/
def wF2 : BloomFilter ℕ := (insertAll 2 wF1 [9]).getD wF1

/-! ### Helper function and lemmas

`setBit` is the successful branch of `setBitForHash`; the fold of `insert`
reduces to a pure `List.foldl setBit` whenever the bit array is non-empty. -/

/-- The pure effect of one `set_bit_for_hash` call on a non-empty bit array. -/
def setBit (bs : List Bool) (h : ℕ) : List Bool := bs.set (bitIndex bs.length h) true

theorem bitIndex_lt {M : ℕ} (hM : M ≠ 0) (h : ℕ) : bitIndex M h < M :=
  Nat.mod_lt _ (Nat.pos_of_ne_zero hM)

theorem length_setBit (bs : List Bool) (h : ℕ) : (setBit bs h).length = bs.length :=
  List.length_set ..

theorem setBit_eq_of_getD {bs : List Bool} {h : ℕ}
    (ht : bs.getD (bitIndex bs.length h) false = true) : setBit bs h = bs := by
  unfold setBit
  by_cases hlt : bitIndex bs.length h < bs.length
  · apply List.ext_getElem?
    intro j
    rw [List.getElem?_set]
    split
    · rename_i hj
      subst hj
      rw [List.getElem?_eq_getElem hlt]
      rw [List.getD_eq_getElem _ _ hlt] at ht
      rw [ht]
    · rfl
  · exact List.set_eq_of_length_le (by omega)

theorem getD_setBit_self {bs : List Bool} (hne : bs.length ≠ 0) (h : ℕ) :
    (setBit bs h).getD (bitIndex bs.length h) false = true := by
  unfold setBit
  rw [List.getD_eq_getD_get?, List.get?_eq_getElem?,
    List.getElem?_set_self (bitIndex_lt hne h)]
  rfl

theorem getD_setBit_mono {bs : List Bool} {j : ℕ} (hj : bs.getD j false = true) (h : ℕ) :
    (setBit bs h).getD j false = true := by
  by_cases hij : bitIndex bs.length h = j
  · subst hij
    by_cases hz : bs.length = 0
    · rw [List.getD_eq_default _ _ (by omega)] at hj
      exact absurd hj (by simp)
    · exact getD_setBit_self hz h
  · unfold setBit
    rw [List.getD_eq_getD_get?, List.get?_eq_getElem?, List.getElem?_set_ne hij,
      ← List.get?_eq_getElem?, ← List.getD_eq_getD_get?]
    exact hj

theorem length_foldl_setBit (hs : List ℕ) (bs : List Bool) :
    (hs.foldl setBit bs).length = bs.length := by
  induction hs generalizing bs with
  | nil => rfl
  | cons h t ih => rw [List.foldl_cons, ih, length_setBit]

theorem getD_foldl_setBit_mono {bs : List Bool} {j : ℕ} (hs : List ℕ)
    (hj : bs.getD j false = true) : (hs.foldl setBit bs).getD j false = true := by
  induction hs generalizing bs with
  | nil => exact hj
  | cons h t ih => exact ih (getD_setBit_mono hj h)

theorem getD_foldl_setBit_of_mem {bs : List Bool} (hne : bs.length ≠ 0) {hs : List ℕ}
    {h : ℕ} (hmem : h ∈ hs) :
    (hs.foldl setBit bs).getD (bitIndex bs.length h) false = true := by
  induction hs generalizing bs with
  | nil => cases hmem
  | cons h' t ih =>
    rw [List.foldl_cons]
    rcases List.mem_cons.mp hmem with heq | hmem'
    · subst heq
      exact getD_foldl_setBit_mono t (getD_setBit_self hne h)
    · have hlen : (setBit bs h').length = bs.length := length_setBit ..
      have hres := ih (show (setBit bs h').length ≠ 0 from by rw [hlen]; exact hne) hmem'
      rw [hlen] at hres
      exact hres

theorem foldl_setBit_eq_of_all_set {bs : List Bool} {hs : List ℕ}
    (hall : ∀ h ∈ hs, bs.getD (bitIndex bs.length h) false = true) :
    hs.foldl setBit bs = bs := by
  induction hs with
  | nil => rfl
  | cons h t ih =>
    rw [List.foldl_cons, setBit_eq_of_getD (hall h (List.mem_cons_self ..))]
    exact ih (fun h' hm => hall h' (List.mem_cons_of_mem _ hm))

theorem foldlM_setBitForHash_of_ne {bs : List Bool} (hne : bs.length ≠ 0) (hs : List ℕ) :
    List.foldlM setBitForHash bs hs = some (hs.foldl setBit bs) := by
  induction hs generalizing bs with
  | nil => rfl
  | cons h t ih =>
    rw [List.foldlM_cons]
    unfold setBitForHash
    rw [if_neg hne]
    show List.foldlM setBitForHash (setBit bs h) t = _
    rw [ih (by rw [length_setBit]; exact hne), List.foldl_cons]

theorem foldlM_setBitForHash_zero {bs : List Bool} (hz : bs.length = 0) {hs : List ℕ}
    (hne : hs ≠ []) : List.foldlM setBitForHash bs hs = none := by
  cases hs with
  | nil => exact absurd rfl hne
  | cons h t =>
    rw [List.foldlM_cons]
    unfold setBitForHash
    rw [if_pos hz]
    rfl

theorem hashesTake_zero (b : α → ℕ → ℕ) (x : α) : hashesTake b x 0 = [] := rfl

theorem hashesTake_ne_nil {b : α → ℕ → ℕ} {x : α} {H : ℕ} (hH : 0 < H) :
    hashesTake b x H ≠ [] := by
  unfold hashesTake
  simp [List.range_eq_nil]
  omega

theorem mem_hashesTake {b : α → ℕ → ℕ} {x : α} {H h : ℕ} :
    h ∈ hashesTake b x H ↔ ∃ i, i < H ∧ b x i = h := by
  unfold hashesTake
  simp [List.mem_map, List.mem_range]

theorem insert_eq_of_ne {f : BloomFilter α} (hne : f.bits.length ≠ 0) (H : ℕ) (x : α) :
    f.insert H x = some ⟨f.builder, (hashesTake f.builder x H).foldl setBit f.bits⟩ := by
  unfold BloomFilter.insert
  rw [foldlM_setBitForHash_of_ne hne]
  rfl

theorem insert_zero_none {f : BloomFilter α} (hz : f.bits.length = 0) {H : ℕ}
    (hH : 0 < H) (x : α) : f.insert H x = none := by
  unfold BloomFilter.insert
  rw [foldlM_setBitForHash_zero hz (hashesTake_ne_nil hH)]
  rfl

theorem insert_eq_some {f f' : BloomFilter α} {H : ℕ} {x : α}
    (hins : f.insert H x = some f') :
    f' = ⟨f.builder, (hashesTake f.builder x H).foldl setBit f.bits⟩ := by
  by_cases hz : f.bits.length = 0
  · rcases Nat.eq_zero_or_pos H with hH | hH
    · subst hH
      rw [hashesTake_zero, List.foldl_nil]
      unfold BloomFilter.insert at hins
      rw [hashesTake_zero] at hins
      exact (Option.some_inj.mp hins.symm)
    · rw [insert_zero_none hz hH] at hins
      cases hins
  · rw [insert_eq_of_ne hz] at hins
    exact (Option.some_inj.mp hins).symm

theorem insert_builder {f f' : BloomFilter α} {H : ℕ} {x : α}
    (hins : f.insert H x = some f') : f'.builder = f.builder := by
  rw [insert_eq_some hins]

theorem insert_length {f f' : BloomFilter α} {H : ℕ} {x : α}
    (hins : f.insert H x = some f') : f'.bits.length = f.bits.length := by
  rw [insert_eq_some hins]
  exact length_foldl_setBit ..

theorem insert_mono {f f' : BloomFilter α} {H : ℕ} {x : α}
    (hins : f.insert H x = some f') {j : ℕ} (hj : f.bits.getD j false = true) :
    f'.bits.getD j false = true := by
  rw [insert_eq_some hins]
  exact getD_foldl_setBit_mono _ hj

theorem insert_sets {f f' : BloomFilter α} {H : ℕ} {x : α}
    (hins : f.insert H x = some f') {h : ℕ} (hmem : h ∈ hashesTake f.builder x H) :
    f'.bits.getD (bitIndex f.bits.length h) false = true := by
  have hne : f.bits.length ≠ 0 := by
    intro hz
    rcases Nat.eq_zero_or_pos H with hH | hH
    · subst hH
      rw [hashesTake_zero] at hmem
      cases hmem
    · rw [insert_zero_none hz hH] at hins
      cases hins
  rw [insert_eq_some hins]
  exact getD_foldl_setBit_of_mem hne hmem

theorem insert_pos_length_ne {f f' : BloomFilter α} {H : ℕ} {x : α} (hH : 0 < H)
    (hins : f.insert H x = some f') : f.bits.length ≠ 0 := by
  intro hz
  rw [insert_zero_none hz hH] at hins
  cases hins

theorem containsLoop_frame {hs : List ℕ} {bs : List Bool} {p : Bool × List Bool}
    (hc : containsLoop hs bs = some p) : p.2 = bs := by
  induction hs generalizing bs with
  | nil =>
    unfold containsLoop at hc
    cases hc
    rfl
  | cons h t ih =>
    unfold containsLoop getBitForHash at hc
    by_cases hz : bs.length = 0
    · rw [if_pos hz] at hc
      cases hc
    · rw [if_neg hz] at hc
      simp only at hc
      split at hc
      · exact ih hc
      · cases hc
        rfl

theorem containsLoop_of_ne {bs : List Bool} (hne : bs.length ≠ 0) (hs : List ℕ) :
    containsLoop hs bs =
      some (hs.all (fun h => bs.getD (bitIndex bs.length h) false), bs) := by
  induction hs with
  | nil => rfl
  | cons h t ih =>
    unfold containsLoop getBitForHash
    rw [if_neg hne]
    simp only [List.all_cons]
    by_cases hb : bs.getD (bitIndex bs.length h) false = true
    · rw [hb, if_pos rfl, ih]
      rfl
    · rw [Bool.not_eq_true] at hb
      rw [hb]
      rfl

theorem containsLoop_zero {bs : List Bool} (hz : bs.length = 0) {hs : List ℕ}
    (hne : hs ≠ []) : containsLoop hs bs = none := by
  cases hs with
  | nil => exact absurd rfl hne
  | cons h t =>
    unfold containsLoop getBitForHash
    rw [if_pos hz]

theorem contains_eq_of_ne {f : BloomFilter α} (hne : f.bits.length ≠ 0) (H : ℕ) (x : α) :
    f.contains H x =
      some ((hashesTake f.builder x H).all
        (fun h => f.bits.getD (bitIndex f.bits.length h) false), f) := by
  unfold BloomFilter.contains
  rw [containsLoop_of_ne hne]
  rfl

theorem contains_zero_hashes (f : BloomFilter α) (x : α) :
    f.contains 0 x = some (true, f) := rfl

theorem contains_zero_none {f : BloomFilter α} (hz : f.bits.length = 0) {H : ℕ}
    (hH : 0 < H) (x : α) : f.contains H x = none := by
  unfold BloomFilter.contains
  rw [containsLoop_zero hz (hashesTake_ne_nil hH)]
  rfl

theorem contains_pos_length_ne {f : BloomFilter α} {H : ℕ} {x : α}
    {p : Bool × BloomFilter α} (hH : 0 < H) (hc : f.contains H x = some p) :
    f.bits.length ≠ 0 := by
  intro hz
  unfold BloomFilter.contains at hc
  rw [containsLoop_zero hz (hashesTake_ne_nil hH)] at hc
  cases hc

theorem insertAll_nil (H : ℕ) (f : BloomFilter α) : insertAll H f [] = some f := rfl

theorem insertAll_cons (H : ℕ) (f : BloomFilter α) (y : α) (ys : List α) :
    insertAll H f (y :: ys) = (f.insert H y).bind (fun g => insertAll H g ys) := by
  unfold insertAll
  rw [List.foldlM_cons]
  rfl

theorem insertAll_builder {f f' : BloomFilter α} {H : ℕ} {ys : List α}
    (hall : insertAll H f ys = some f') : f'.builder = f.builder := by
  induction ys generalizing f with
  | nil =>
    cases hall
    rfl
  | cons y t ih =>
    rw [insertAll_cons] at hall
    cases hins : f.insert H y with
    | none => rw [hins] at hall; cases hall
    | some g =>
      rw [hins] at hall
      rw [ih hall, insert_builder hins]

theorem insertAll_length {f f' : BloomFilter α} {H : ℕ} {ys : List α}
    (hall : insertAll H f ys = some f') : f'.bits.length = f.bits.length := by
  induction ys generalizing f with
  | nil =>
    cases hall
    rfl
  | cons y t ih =>
    rw [insertAll_cons] at hall
    cases hins : f.insert H y with
    | none => rw [hins] at hall; cases hall
    | some g =>
      rw [hins] at hall
      rw [ih hall, insert_length hins]

theorem insertAll_mono {f f' : BloomFilter α} {H : ℕ} {ys : List α}
    (hall : insertAll H f ys = some f') {j : ℕ} (hj : f.bits.getD j false = true) :
    f'.bits.getD j false = true := by
  induction ys generalizing f with
  | nil =>
    cases hall
    exact hj
  | cons y t ih =>
    rw [insertAll_cons] at hall
    cases hins : f.insert H y with
    | none => rw [hins] at hall; cases hall
    | some g =>
      rw [hins] at hall
      exact ih hall (insert_mono hins hj)

theorem new_builder (b : α → ℕ → ℕ) (K : ℕ) : (BloomFilter.new b K).builder = b := rfl

theorem new_length (b : α → ℕ → ℕ) (K : ℕ) :
    (BloomFilter.new b K).bits.length = K * wordBits :=
  List.length_replicate ..

theorem getD_replicate_false (n j : ℕ) :
    (List.replicate n false).getD j false = false := by
  by_cases hj : j < n
  · rw [List.getD_eq_getElem _ _ (by simpa using hj)]
    exact List.getElem_replicate ..
  · exact List.getD_eq_default _ _ (by simpa using hj)

theorem contains_true_of_all_set {f : BloomFilter α} {H : ℕ} {x : α}
    (hcase : H = 0 ∨ f.bits.length ≠ 0)
    (hall : ∀ h ∈ hashesTake f.builder x H,
      f.bits.getD (bitIndex f.bits.length h) false = true) :
    f.contains H x = some (true, f) := by
  rcases hcase with hH | hne
  · subst hH
    exact contains_zero_hashes f x
  · rw [contains_eq_of_ne hne]
    rw [List.all_eq_true.mpr hall]

theorem contains_snd_eq {f : BloomFilter α} {H : ℕ} {x : α} {p : Bool × BloomFilter α}
    (hc : f.contains H x = some p) : p.2 = f := by
  unfold BloomFilter.contains at hc
  cases hcl : containsLoop (hashesTake f.builder x H) f.bits with
  | none => rw [hcl] at hc; cases hc
  | some q =>
    rw [hcl] at hc
    cases hc
    show (⟨f.builder, q.2⟩ : BloomFilter α) = f
    rw [containsLoop_frame hcl]

/-! ### Claim theorems -/

/-- C3: for every 64-bit hash value `h`, the bit index used by both `insert`
and `contains` (the function `bitIndex`, applied to the length of the filter's
bit array) equals `h mod M`, where `M = K * wordBits` is the total bit count
of a filter built by `new`; the 64-bit value is not truncated or sign-extended
before the modulo. -/
theorem bitIndex_eq_mod {α : Type} (b : α → ℕ → ℕ) (K h : ℕ) (hh : h < 2 ^ 64) :
    bitIndex ((BloomFilter.new b K).bits.length) h = h % (K * wordBits) := by
  rw [new_length]
  unfold bitIndex hash64ToU64
  rw [Nat.mod_eq_of_lt hh]

/-- C3 witness. -/
theorem bitIndex_eq_mod_witness :
    7 < 2 ^ 64 ∧
      bitIndex ((BloomFilter.new (fun (x i : ℕ) => x + 65 * i) 1).bits.length) 7 =
        7 % (1 * wordBits) :=
  ⟨by norm_num, bitIndex_eq_mod (fun (x i : ℕ) => x + 65 * i) 1 7 (by norm_num)⟩

/-- C4: a freshly constructed filter (`new` allocates an all-zero bit array of
`K * wordBits` bits and always succeeds) answers `contains x = false` for every
item `x`, for any positive word count `K` and hash count `H`. -/
theorem new_contains_false {α : Type} (b : α → ℕ → ℕ) {K H : ℕ} (x : α)
    (hK : 0 < K) (hH : 0 < H) :
    (BloomFilter.new b K).contains H x = some (false, BloomFilter.new b K) := by
  have hne : (BloomFilter.new b K).bits.length ≠ 0 := by
    rw [new_length]
    unfold wordBits
    omega
  rw [contains_eq_of_ne hne]
  have hfalse : (hashesTake (BloomFilter.new b K).builder x H).all
      (fun h => (BloomFilter.new b K).bits.getD
        (bitIndex (BloomFilter.new b K).bits.length h) false) = false := by
    apply List.all_eq_false.mpr
    obtain ⟨h₀, hmem⟩ := List.exists_mem_of_ne_nil _ (hashesTake_ne_nil hH)
    refine ⟨h₀, hmem, ?_⟩
    show ¬(List.replicate (K * wordBits) false).getD _ false = true
    rw [getD_replicate_false]
    simp
  rw [hfalse]

/-- C4 witness. -/
theorem new_contains_false_witness :
    (0 < 1 ∧ 0 < 2) ∧
      (BloomFilter.new (fun (x i : ℕ) => x + 65 * i) 1).contains 2 99 =
        some (false, BloomFilter.new (fun (x i : ℕ) => x + 65 * i) 1) :=
  ⟨⟨Nat.one_pos, by omega⟩,
    new_contains_false (fun (x i : ℕ) => x + 65 * i) 99 Nat.one_pos (by omega)⟩

/-- C5: `insert` is idempotent — for every filter state and item, inserting the
item twice yields exactly the state obtained by inserting it once (and if the
first insertion fails, so does the composite). -/
theorem insert_idempotent {α : Type} (H : ℕ) (f : BloomFilter α) (x : α) :
    (f.insert H x).bind (fun g => g.insert H x) = f.insert H x := by
  cases hins : f.insert H x with
  | none => rfl
  | some f' =>
    show f'.insert H x = some f'
    rcases Nat.eq_zero_or_pos H with hH | hH
    · subst hH
      unfold BloomFilter.insert
      rw [hashesTake_zero]
      have hchar := insert_eq_some hins
      rw [hashesTake_zero, List.foldl_nil] at hchar
      subst hchar
      rfl
    · have hne : f.bits.length ≠ 0 := insert_pos_length_ne hH hins
      have hne' : f'.bits.length ≠ 0 := by
        rw [insert_length hins]
        exact hne
      rw [insert_eq_of_ne hne']
      have hall : ∀ h ∈ hashesTake f'.builder x H,
          f'.bits.getD (bitIndex f'.bits.length h) false = true := by
        intro h hm
        rw [insert_builder hins] at hm
        rw [insert_length hins]
        exact insert_sets hins hm
      rw [foldl_setBit_eq_of_all_set hall]

/-- C9: `contains` never changes the filter — even though the source method
takes `&mut self`, the filter state it returns (second component of the
state-passing embedding) is the input filter, so the bit array is unchanged. -/
theorem contains_no_mutation {α : Type} (H : ℕ) (f : BloomFilter α) (x : α) :
    (f.contains H x).map Prod.snd = (f.contains H x).map (fun _ => f) := by
  cases hc : f.contains H x with
  | none => rfl
  | some p =>
    show some p.2 = some f
    rw [contains_snd_eq hc]

/-- C10: with hash count `H = 0`, `contains` answers `true` on every filter
state (the conjunction over zero bit reads is vacuously true) — in particular
on a freshly constructed all-zero filter — and `insert` sets no bits, leaving
the filter unchanged. -/
theorem h_zero_contains_true {α : Type} (f : BloomFilter α) (x : α) :
    f.contains 0 x = some (true, f) ∧ f.insert 0 x = some f :=
  ⟨contains_zero_hashes f x, rfl⟩

/-- C1: no false negatives — once `insert x` has completed on a filter (with
the word count, hash count and hash family fixed), `contains x` answers `true`
after any further sequence of insertions of arbitrary other items (the empty
sequence gives the state immediately after `insert x`). -/
theorem no_false_negatives {α : Type} {H : ℕ} {f f' f'' : BloomFilter α} {x : α}
    {ys : List α} (hins : f.insert H x = some f')
    (hseq : insertAll H f' ys = some f'') :
    f''.contains H x = some (true, f'') := by
  apply contains_true_of_all_set
  · rcases Nat.eq_zero_or_pos H with hH | hH
    · exact Or.inl hH
    · refine Or.inr ?_
      rw [insertAll_length hseq, insert_length hins]
      exact insert_pos_length_ne hH hins
  · intro h hm
    rw [insertAll_builder hseq, insert_builder hins] at hm
    rw [insertAll_length hseq, insert_length hins]
    exact insertAll_mono hseq (insert_sets hins hm)

/-- C1 witness. -/
theorem no_false_negatives_witness :
    (wF0.insert 2 5 = some wF1 ∧ insertAll 2 wF1 [9] = some wF2) ∧
      wF2.contains 2 5 = some (true, wF2) :=
  ⟨⟨rfl, rfl⟩, @no_false_negatives ℕ 2 wF0 wF1 wF2 5 [9] rfl rfl⟩

/-- C2: the answer of `contains` is the conjunction of the `H` bit reads — a
returned boolean `b` is `true` exactly when, for every `i < H`, the bit at the
index derived from the `i`-th hash value of the item is set. -/
theorem contains_is_conjunction {α : Type} {H : ℕ} {f : BloomFilter α} {x : α}
    {b : Bool} {f' : BloomFilter α} (hc : f.contains H x = some (b, f')) :
    b = true ↔ ∀ i, i < H →
      f.bits.getD (bitIndex f.bits.length (f.builder x i)) false = true := by
  rcases Nat.eq_zero_or_pos H with hH | hH
  · subst hH
    rw [contains_zero_hashes] at hc
    have hb : true = b := (Prod.mk.injEq ..).mp (Option.some_inj.mp hc) |>.1
    subst hb
    constructor
    · intro _ i hi
      omega
    · intro _
      rfl
  · have hne := contains_pos_length_ne hH hc
    rw [contains_eq_of_ne hne] at hc
    have hb := ((Prod.mk.injEq ..).mp (Option.some_inj.mp hc)).1
    rw [← hb]
    constructor
    · intro hall i hi
      exact List.all_eq_true.mp hall (f.builder x i) (mem_hashesTake.mpr ⟨i, hi, rfl⟩)
    · intro hall
      apply List.all_eq_true.mpr
      intro h hm
      obtain ⟨i, hi, rfl⟩ := mem_hashesTake.mp hm
      exact hall i hi

/-- C2 witness. -/
theorem contains_is_conjunction_witness :
    wF1.contains 2 5 = some (true, wF1) ∧
      (true = true ↔ ∀ i, i < 2 →
        wF1.bits.getD (bitIndex wF1.bits.length (wF1.builder 5 i)) false = true) :=
  ⟨rfl, @contains_is_conjunction ℕ 2 wF1 5 true wF1 rfl⟩

/-- C6: across any sequence of `insert` calls the set of set bits is
non-decreasing (no bit is ever cleared), and consequently once `contains x`
answers `true` it still answers `true` after the further insertions. -/
theorem bits_monotone_contains_stable {α : Type} {H : ℕ} {f f' : BloomFilter α}
    {ys : List α} (hseq : insertAll H f ys = some f') :
    (∀ j, f.bits.getD j false = true → f'.bits.getD j false = true) ∧
    (∀ x : α, (f.contains H x).map Prod.fst = some true →
      (f'.contains H x).map Prod.fst = some true) := by
  refine ⟨fun j hj => insertAll_mono hseq hj, fun x hx => ?_⟩
  rcases Nat.eq_zero_or_pos H with hH | hH
  · subst hH
    rw [contains_zero_hashes]
    rfl
  · cases hc : f.contains H x with
    | none =>
      rw [hc] at hx
      cases hx
    | some p =>
      rw [hc] at hx
      have hp1 : p.1 = true := by simpa using hx
      have hne := contains_pos_length_ne hH hc
      rw [contains_eq_of_ne hne] at hc
      have hpair := Option.some_inj.mp hc
      have hall : (hashesTake f.builder x H).all
          (fun h => f.bits.getD (bitIndex f.bits.length h) false) = true := by
        rw [← hpair] at hp1
        exact hp1
      have hctrue : f'.contains H x = some (true, f') := by
        apply contains_true_of_all_set
        · refine Or.inr ?_
          rw [insertAll_length hseq]
          exact hne
        · intro h hm
          rw [insertAll_builder hseq] at hm
          rw [insertAll_length hseq]
          exact insertAll_mono hseq (List.all_eq_true.mp hall h hm)
      rw [hctrue]
      rfl

/-- C6 witness. -/
theorem bits_monotone_contains_stable_witness :
    insertAll 2 wF1 [9] = some wF2 ∧
      ((∀ j, wF1.bits.getD j false = true → wF2.bits.getD j false = true) ∧
       (∀ x : ℕ, (wF1.contains 2 x).map Prod.fst = some true →
         (wF2.contains 2 x).map Prod.fst = some true)) :=
  ⟨rfl, @bits_monotone_contains_stable ℕ 2 wF1 wF2 [9] rfl⟩

/-- C7: determinism — two filters whose hash-family builders hold identical
keys (equal builders), fed the identical sequence of insertions, have
identical states after every step and give identical answers to every
`contains` query. -/
theorem identical_keys_deterministic {α : Type} (H K : ℕ) (b1 b2 : α → ℕ → ℕ)
    (hb : b1 = b2) (ys : List α) :
    (∀ n, insertAll H (BloomFilter.new b1 K) (ys.take n) =
      insertAll H (BloomFilter.new b2 K) (ys.take n)) ∧
    (∀ x, (insertAll H (BloomFilter.new b1 K) ys).bind (fun g => g.contains H x) =
      (insertAll H (BloomFilter.new b2 K) ys).bind (fun g => g.contains H x)) := by
  subst hb
  exact ⟨fun _ => rfl, fun _ => rfl⟩

/-- C7 witness. -/
theorem identical_keys_deterministic_witness :
    wB = wB ∧
      ((∀ n, insertAll 1 (BloomFilter.new wB 1) ([3, 4].take n) =
        insertAll 1 (BloomFilter.new wB 1) ([3, 4].take n)) ∧
       (∀ x, (insertAll 1 (BloomFilter.new wB 1) [3, 4]).bind (fun g => g.contains 1 x) =
        (insertAll 1 (BloomFilter.new wB 1) [3, 4]).bind (fun g => g.contains 1 x))) :=
  ⟨rfl, identical_keys_deterministic 1 1 wB wB rfl [3, 4]⟩

/-- C8 counterexample: with word count `K = 0` (total bit count `M = 0`), a
concrete `new` call does not reject the configuration — it succeeds, yielding
a filter with an empty bit array — and the degeneracy surfaces only later:
the first `insert` (and `contains`) fails on the modulo by zero. -/
theorem zero_size_not_rejected_at_new :
    (BloomFilter.new (fun (x i : ℕ) => x + 65 * i) 0).bits = [] ∧
    (BloomFilter.new (fun (x i : ℕ) => x + 65 * i) 0).insert 1 7 = none ∧
    (BloomFilter.new (fun (x i : ℕ) => x + 65 * i) 0).contains 1 7 = none :=
  ⟨rfl, rfl, rfl⟩

/-- C8 amended: a zero-sized bit array (`K = 0`, hence `M = 0`) is not
rejected at construction — `new` is total and succeeds — and the
misconfiguration surfaces later as the modulo-by-zero failure of `insert` and
`contains` whenever at least one hash value is consumed (`H > 0`). -/
theorem zero_size_surfaces_at_operations {α : Type} (b : α → ℕ → ℕ) (x : α)
    {H : ℕ} (hH : 0 < H) :
    (BloomFilter.new b 0).bits = [] ∧
    (BloomFilter.new b 0).insert H x = none ∧
    (BloomFilter.new b 0).contains H x = none := by
  have hz : (BloomFilter.new b 0).bits.length = 0 := by
    rw [new_length, Nat.zero_mul]
  refine ⟨?_, insert_zero_none hz hH x, contains_zero_none hz hH x⟩
  show List.replicate (0 * wordBits) false = []
  rw [Nat.zero_mul]
  rfl

/-- C8 amended witness. -/
theorem zero_size_surfaces_witness :
    0 < 1 ∧
      ((BloomFilter.new (fun (x _ : ℕ) => x * 3) 0).bits = [] ∧
       (BloomFilter.new (fun (x _ : ℕ) => x * 3) 0).insert 1 9 = none ∧
       (BloomFilter.new (fun (x _ : ℕ) => x * 3) 0).contains 1 9 = none) :=
  ⟨Nat.one_pos, zero_size_surfaces_at_operations (fun (x _ : ℕ) => x * 3) 9 Nat.one_pos⟩

end AabelBloom
